import Mathlib

/-!
Shallow embedding of `src/scripts/misc.py` (GMAC feedback-analysis utilities)
and proofs about its segmentation, resampling, tilt, autocorrelation,
rater-labelling and LOSO-split routines.

Conventions of the embedding:
* A time-indexed data-frame row is a pair `(timestamp, value)`; timestamps are
  rationals measuring seconds (pandas timestamps are converted to seconds via
  `total_seconds()` by the source, and the resampling origin is taken as time
  zero).
* Fallible code — `np.hstack([])` (raises `ValueError`), indexing an empty
  index (raises `IndexError`), `np.hstack` of height-mismatched blocks —
  is modelled with `Option`, `none` marking the raised exception.
* `np.random.rand(...) > 0.5` tie-break coin flips are modelled by an explicit
  stream of booleans consumed in row order.
* Real-valued code that feeds `np.arccos` is modelled over `ℝ`.
-/

namespace Misc

/-- A row of a time-indexed series: `(timestamp in seconds, value)`. -/
abbrev Row : Type := ℚ × ℚ

/-- `np.mean` of a 1-D array (an empty array is never passed by the claims). -/
def listMean (x : List ℚ) : ℚ := x.sum / x.length

/-- `np.diff(df.index.values)` converted to seconds: consecutive time gaps. -/
def gaps (ts : List ℚ) : List ℚ := List.zipWith (fun a b => b - a) ts ts.tail

/-- `np.where(_dtimes > th)[0]`: indices of the gaps exceeding the threshold,
in increasing order. -/
def jumps (ts : List ℚ) (th : ℚ) : List ℕ :=
  (List.range (gaps ts).length).filter (fun i => th < (gaps ts).getD i 0)

/-- `l.iloc[a:b]` positional slice of a data frame. -/
def slice {α : Type} (l : List α) (a b : ℕ) : List α := (l.drop a).take (b - a)

/-- `np.sort(np.append(np.where(time_diff > tjump)[0], -1))` shifted by one:
the start index of each maximal continuous run (`inx[i] + 1` in the source). -/
def contStarts (ts : List ℚ) (tjump : ℚ) : List ℕ := 0 :: (jumps ts tjump).map (· + 1)

/-- `get_continuous_segments(df, tjump=1)`: the list comprehension slices
`df.iloc[inx[i]+1 : inx[i+1]+1]` for consecutive entries and
`df.iloc[inx[-1]+1:]` for the last entry. -/
def get_continuous_segments (rows : List Row) (tjump : ℚ) : List (List Row) :=
  ((contStarts (rows.map Prod.fst) tjump).zip (contStarts (rows.map Prod.fst) tjump).tail).map
      (fun p => slice rows p.1 p.2)
    ++ [rows.drop ((contStarts (rows.map Prod.fst) tjump).getLastD 0)]

/-- `inx = np.hstack((0, np.where(_dtimes > dT)[0] + 1, len(df)))` in
`assign_segments`. -/
def boundsOf (rows : List Row) (dT : ℚ) : List ℕ :=
  0 :: ((jumps (rows.map Prod.fst) dT).map (· + 1) ++ [rows.length])

/-- `seginx = list(zip(inx[0:-1], inx[1:]))`: candidate segment index ranges. -/
def segPairs (rows : List Row) (dT : ℚ) : List (ℕ × ℕ) :=
  (boundsOf rows dT).zip (boundsOf rows dT).tail

/-- The duration filter of `assign_segments`: keep `ix` when
`(df.index[ix[1]-1] - df.index[ix[0]]).total_seconds() > dur_th`. -/
def keptPairs (rows : List Row) (dur_th dT : ℚ) : List (ℕ × ℕ) :=
  (segPairs rows dT).filter
    (fun p => dur_th < (rows.map Prod.fst).getD (p.2 - 1) 0 - (rows.map Prod.fst).getD p.1 0)

/-- `assign_segments(df, dur_th, dT)`.  The output pairs each retained row
with its integer segment label (the source attaches the label as a column and
`pd.concat`s; with strictly increasing timestamps that alignment is
positional).  `none` models the two crashes of the source: `df.index[-1]` on
an empty frame (`IndexError`) and `np.hstack([])` when every candidate
segment is filtered out (`ValueError`). -/
def assign_segments (rows : List Row) (dur_th dT : ℚ) : Option (List (Row × ℕ)) :=
  if rows.isEmpty then none
  else if (keptPairs rows dur_th dT).isEmpty then none
  else some (((keptPairs rows dur_th dT).enum.map
    (fun q => (slice rows q.2.1 q.2.2).map (fun r => (r, q.1)))).flatten)

/-- Python's `round(q, 2)` on the exact rational value: round to the nearest
multiple of `1/100`, ties to even (banker's rounding). -/
def round2 (q : ℚ) : ℚ :=
  let z : ℤ := ⌊(100 : ℚ) * q⌋
  let f : ℚ := 100 * q - (z : ℚ)
  let k : ℤ :=
    if f < 1 / 2 then z
    else if 1 / 2 < f then z + 1
    else if z % 2 = 0 then z else z + 1
  (k : ℚ) / 100

/-- The (right-closed) resampling bin holding time `t`: bin `k` covers
`((k-1)*w, k*w]` and is labelled by its right edge `k*w`. -/
def binIdx (w t : ℚ) : ℤ := ⌈t / w⌉

/-- `.mean()` of the raw samples of one bin; an empty bin yields a missing
value (`NaN` in pandas). -/
def binMean (vals : List ℚ) : Option ℚ :=
  if vals.isEmpty then none else some (vals.sum / (vals.length : ℚ))

/-- `df.resample(..., label='right', closed='right').mean()` on one continuous
segment with bin width `w`: one output row per bin from the bin of the first
sample to the bin of the last one, labelled by the right bin edge. -/
def resampleSeg (w : ℚ) (seg : List Row) : List (ℚ × Option ℚ) :=
  match seg.head?, seg.getLast? with
  | some r0, some r1 =>
    (List.range (binIdx w r1.1 - binIdx w r0.1 + 1).toNat).map (fun (i : ℕ) =>
      (((binIdx w r0.1 + (i : ℤ)) : ℚ) * w,
       binMean ((seg.filter (fun r => binIdx w r.1 = binIdx w r0.1 + (i : ℤ))).map Prod.snd)))
  | _, _ => []

/-- `resample(df, new_fs)`: split into continuous segments (default jump
threshold 1 s), resample each at the bin width
`f'{str(round(1 / new_fs, 2))}S'` — i.e. `1/new_fs` rounded to two decimal
places — and concatenate. -/
def resample (rows : List Row) (new_fs : ℚ) : List (ℚ × Option ℚ) :=
  ((get_continuous_segments rows 1).map (resampleSeg (round2 (1 / new_fs)))).flatten

/-- `x - np.mean(x)` in `autcorr`. -/
def centered (x : List ℚ) : List ℚ := x.map (fun v => v - listMean x)

/-- The square of `np.std(x)` (mean squared deviation); the source only
compares `np.std(x)` with `0`, and `np.std(x) == 0` iff `stdSq x = 0`. -/
def stdSq (x : List ℚ) : ℚ := listMean ((centered x).map (fun v => v * v))

/-- `np.correlate(x_hat, x_hat, mode='full')[len(x)-1+k]`: the lag-`k`
(`k ≥ 0`) term of the full autocorrelation. -/
def acFull (xh : List ℚ) (k : ℕ) : ℚ :=
  ∑ i in Finset.range (xh.length - k), xh.getD i 0 * xh.getD (i + k) 0

/-- `autcorr(x)`: all-zero vector for a zero-variance signal, otherwise the
lag `≥ 0` part of the full autocorrelation normalised by its lag-0 value. -/
def autcorr (x : List ℚ) : List ℚ :=
  if stdSq x = 0 then List.replicate x.length 0
  else (List.range x.length).map (fun k => acFull (centered x) k / acFull (centered x) 0)

/-- `get_uluse_from_raters(ratings)`: row-wise mean compared with `0.5`; rows
whose mean is exactly `0.5` consume, in row order, one pseudo-random coin
each (`np.random.rand(...) > 0.5`), modelled by the `coins` stream. -/
def get_uluse_from_raters : List (List ℚ) → List Bool → List Bool
  | [], _ => []
  | r :: rs, coins =>
    if listMean r = 1 / 2 then coins.headD false :: get_uluse_from_raters rs coins.tail
    else decide (1 / 2 < listMean r) :: get_uluse_from_raters rs coins

/-- The distinct subject keys in the order `pandas.groupby` iterates them
(sorted ascending). -/
def sortedSubjects (keys : List ℤ) : List ℤ := keys.dedup.mergeSort (fun a b => a ≤ b)

/-- `outerloop_loso_split(limbdf, subcol)`: for each distinct subject (in
groupby order) the pair `(limbdf[limbdf[subcol] != subj], subjdf)`. -/
def outerloop_loso_split (limbdf : List (ℤ × ℚ)) : List (List (ℤ × ℚ) × List (ℤ × ℚ)) :=
  (sortedSubjects (limbdf.map Prod.fst)).map (fun s =>
    (limbdf.filter (fun r => ¬ r.1 = s), limbdf.filter (fun r => r.1 = s)))

/-- `innerloop_loso_split(train_df, subcol)`: the source copies `train_df`,
attaches a positional index column `inx = range(len)`, and for each distinct
subject collects `(train_inx, val_inx)` over that column. -/
def innerloop_loso_split (train_df : List (ℤ × ℚ)) : List (List ℕ × List ℕ) :=
  (sortedSubjects (train_df.map Prod.fst)).map (fun s =>
    ((List.range train_df.length).filter (fun i => ¬ (train_df.getD i (0, 0)).1 = s),
     (List.range train_df.length).filter (fun i => (train_df.getD i (0, 0)).1 = s)))

/-- `np.hstack` of two blocks of rows; `none` models the `ValueError` raised
when the row counts differ. -/
def hstackRows (a b : List (List ℚ)) : Option (List (List ℚ)) :=
  if a.length = b.length then some (List.zipWith (fun u v => u ++ v) a b) else none

/-- One step of the per-limb aggregation loop of
`genrate_ul_autocorr_summary`: the first block is taken unconditionally as
`_acorr.T[:N, :]`; a later block is stacked only when `_acorr.T.shape[0] >= N`
and is otherwise skipped. -/
def aggStep (N : ℕ) (acc : Option (Option (List (List ℚ)))) (m : List (List ℚ)) :
    Option (Option (List (List ℚ))) :=
  match acc with
  | none => none
  | some none => some (some (m.take N))
  | some (some a) =>
    if N ≤ m.length then
      match hstackRows a (m.take N) with
      | some r => some (some r)
      | none => none
    else some (some a)

/-- The per-limb aggregation of `genrate_ul_autocorr_summary` over the
segment autocorrelation blocks (`_acorr.T`, rows = lags) in iteration order.
The outer `Option` is the crash state (`np.hstack` height mismatch), the
inner one is the `all_ul[limb] = None` initial state. -/
def aggregate_acorr (N : ℕ) (ms : List (List (List ℚ))) : Option (Option (List (List ℚ))) :=
  ms.foldl (aggStep N) (some none)

/-- Clamping step of `compute_tilt`: `acclf[acclf < -1] = -1;
acclf[acclf > 1] = 1`. -/
noncomputable def clamp1 (v : ℝ) : ℝ := if v < -1 then -1 else if 1 < v then 1 else v

/-- `signal.lfilter(np.ones(nwin)/nwin, 1, x)`: the causal moving average
`y[n] = (x[n] + ... + x[n-nwin+1]) / nwin` with zero initial state. -/
noncomputable def lfilterMA (nwin : ℕ) (x : List ℝ) : List ℝ :=
  (List.range x.length).map (fun n =>
    (∑ k in Finset.range nwin, if k ≤ n then x.getD (n - k) 0 else 0) / (nwin : ℝ))

/-- `signal.savgol_filter(x, window_length=nwin, polyorder=0,
mode='constant')` for odd `nwin`: the zero-padded centred moving average (a
degree-0 Savitzky-Golay fit of a window is its mean). -/
noncomputable def savgol0 (nwin : ℕ) (x : List ℝ) : List ℝ :=
  (List.range x.length).map (fun n =>
    (∑ j in Finset.range nwin, if n + j < nwin / 2 then 0 else x.getD (n + j - nwin / 2) 0)
      / (nwin : ℝ))

/-- `-np.rad2deg(np.arccos(c)) + 90` applied to the clamped smoothed value. -/
noncomputable def tiltFormula (c : ℝ) : ℝ :=
  -(Real.arccos (clamp1 c) * (180 / Real.pi)) + 90

/-- `compute_tilt(accl_farm, nwin, causal)`: smooth (causal moving average or
Savitzky-Golay), clamp to `[-1, 1]`, then apply the arccos tilt formula. -/
noncomputable def compute_tilt (accl_farm : List ℝ) (nwin : ℕ) (causal : Bool) : List ℝ :=
  (if causal then lfilterMA nwin accl_farm else savgol0 nwin accl_farm).map tiltFormula

/-! ### Generic list lemmas -/

/-- Summing a function of `getD` over the index range is summing over the list. -/
theorem sum_range_getD (l : List ℚ) (g : ℚ → ℚ) :
    ∑ i in Finset.range l.length, g (l.getD i 0) = (l.map g).sum := by
  induction l with
  | nil => simp
  | cons a t ih =>
    rw [List.length_cons, Finset.sum_range_succ']
    simp only [List.getD_cons_succ, List.getD_cons_zero, List.map_cons, List.sum_cons, ih]
    ring

/-- A sum of squares of rationals vanishes iff every entry vanishes. -/
theorem sum_sq_eq_zero_iff (l : List ℚ) :
    (l.map (fun v => v * v)).sum = 0 ↔ ∀ v ∈ l, v = 0 := by
  induction l with
  | nil => simp
  | cons a t ih =>
    simp only [List.map_cons, List.sum_cons]
    have h1 : 0 ≤ a * a := mul_self_nonneg a
    have h2 : 0 ≤ (t.map (fun v => v * v)).sum :=
      List.sum_nonneg (by
        intro v hv
        obtain ⟨w, _, rfl⟩ := List.mem_map.mp hv
        exact mul_self_nonneg w)
    rw [add_eq_zero_iff_of_nonneg h1 h2, mul_self_eq_zero, ih]
    simp [forall_and]

/-- Membership in the list of consecutive pairs yields the two positions. -/
theorem mem_zip_tail {α : Type} : ∀ {l : List α} {x y : α},
    (x, y) ∈ l.zip l.tail → ∃ i, l[i]? = some x ∧ l[i + 1]? = some y
  | [], x, y, h => by simp at h
  | [a], x, y, h => by simp at h
  | a :: b :: t, x, y, h => by
    have h' : (x = a ∧ y = b) ∨ (x, y) ∈ (b :: t).zip t := by simpa using h
    rcases h' with ⟨rfl, rfl⟩ | h2
    · exact ⟨0, by simp⟩
    · obtain ⟨i, hx, hy⟩ := mem_zip_tail (l := b :: t) h2
      exact ⟨i + 1, by simpa using hx, by simpa using hy⟩

/-! ### Segmentation machinery (C1, C2) -/

theorem gaps_length (ts : List ℚ) : (gaps ts).length = ts.length - 1 := by
  simp only [gaps, List.length_zipWith, List.length_tail]
  omega

theorem gaps_getD (ts : List ℚ) (j : ℕ) (h : j + 1 < ts.length) :
    (gaps ts).getD j 0 = ts.getD (j + 1) 0 - ts.getD j 0 := by
  have hj : j < (gaps ts).length := by rw [gaps_length]; omega
  have hj1 : j < ts.tail.length := by simp [List.length_tail]; omega
  rw [List.getD_eq_getElem _ _ hj, List.getD_eq_getElem _ _ (by omega : j + 1 < ts.length),
    List.getD_eq_getElem _ _ (by omega : j < ts.length)]
  simp [gaps, List.getElem_zipWith, List.getElem_tail]

theorem mem_jumps {ts : List ℚ} {th : ℚ} {j : ℕ} :
    j ∈ jumps ts th ↔ j < ts.length - 1 ∧ th < (gaps ts).getD j 0 := by
  simp [jumps, List.mem_filter, gaps_length]

theorem jumps_pairwise (ts : List ℚ) (th : ℚ) : (jumps ts th).Pairwise (· < ·) :=
  (List.pairwise_lt_range _).filter _

theorem contStarts_pairwise (ts : List ℚ) (tj : ℚ) : (contStarts ts tj).Pairwise (· < ·) := by
  rw [contStarts]
  refine List.pairwise_cons.mpr ⟨?_, ?_⟩
  · intro b hb
    obtain ⟨j, _, rfl⟩ := List.mem_map.mp hb
    omega
  · exact (jumps_pairwise ts tj).map _ (fun h => by omega)

theorem boundsOf_pairwise (rows : List Row) (dT : ℚ) (h : rows ≠ []) :
    (boundsOf rows dT).Pairwise (· < ·) := by
  have hn : 0 < rows.length := List.length_pos.mpr h
  rw [boundsOf]
  refine List.pairwise_cons.mpr ⟨?_, ?_⟩
  · intro b hb
    rcases List.mem_append.mp hb with hb | hb
    · obtain ⟨j, _, rfl⟩ := List.mem_map.mp hb
      omega
    · simp only [List.mem_singleton] at hb
      omega
  · refine List.pairwise_append.mpr ⟨?_, by simp, ?_⟩
    · exact (jumps_pairwise _ _).map _ (fun h => by omega)
    · intro a ha b hb
      simp only [List.mem_singleton] at hb
      subst hb
      obtain ⟨j, hj, rfl⟩ := List.mem_map.mp ha
      have hje := mem_jumps.mp hj
      rw [List.length_map] at hje
      omega

theorem boundsOf_mem_le {rows : List Row} {dT : ℚ} {x : ℕ} (hx : x ∈ boundsOf rows dT) :
    x ≤ rows.length := by
  rw [boundsOf] at hx
  rcases List.mem_cons.mp hx with rfl | hx
  · omega
  rcases List.mem_append.mp hx with hx | hx
  · obtain ⟨j, hj, rfl⟩ := List.mem_map.mp hx
    have hje := mem_jumps.mp hj
    rw [List.length_map] at hje
    omega
  · simp only [List.mem_singleton] at hx
    omega

/-- Consecutive entries of a strictly increasing list have no list element
strictly between them. -/
theorem pairwise_zip_tail {l : List ℕ} (hl : l.Pairwise (· < ·)) {a b : ℕ}
    (h : (a, b) ∈ l.zip l.tail) : a < b ∧ ∀ x ∈ l, x ≤ a ∨ b ≤ x := by
  obtain ⟨i, ha, hb⟩ := mem_zip_tail h
  obtain ⟨hia, ha'⟩ := List.getElem?_eq_some_iff.mp ha
  obtain ⟨hib, hb'⟩ := List.getElem?_eq_some_iff.mp hb
  have hmono := List.pairwise_iff_getElem.mp hl
  constructor
  · have := hmono i (i + 1) hia hib (by omega)
    rwa [ha', hb'] at this
  · intro x hx
    obtain ⟨j, hj, rfl⟩ := List.mem_iff_getElem.mp hx
    rcases Nat.lt_or_ge j (i + 1) with hji | hji
    · left
      rcases Nat.lt_or_ge j i with hlt | hge
      · have := hmono j i hj hia hlt
        rw [ha'] at this
        exact le_of_lt this
      · have hj_eq : j = i := by omega
        subst hj_eq
        rw [ha']
    · right
      rcases Nat.lt_or_ge (i + 1) j with hlt | hge
      · have := hmono (i + 1) j hib hj hlt
        rw [hb'] at this
        exact le_of_lt this
      · have hj_eq : j = i + 1 := by omega
        subst hj_eq
        rw [hb']

theorem zip_tail_mem {α : Type} {l : List α} {a b : α} (h : (a, b) ∈ l.zip l.tail) :
    a ∈ l ∧ b ∈ l := by
  obtain ⟨i, ha, hb⟩ := mem_zip_tail h
  exact ⟨List.getElem?_mem ha, List.getElem?_mem hb⟩

theorem getLastD_cons_of_ne {α : Type} (a d : α) (l : List α) (hl : l ≠ []) :
    (a :: l).getLastD d = l.getLastD d := by
  cases l with
  | nil => cases hl rfl
  | cons b t => simp [List.getLastD_eq_getLast?, List.getLast?_cons_cons]

/-- Concatenating the slices cut at a nondecreasing list of boundaries,
followed by the remainder after the last boundary, recovers the suffix from
the first boundary. -/
theorem flatten_slices {α : Type} (l : List α) :
    ∀ (ss : List ℕ) (a : ℕ), (a :: ss).Pairwise (· ≤ ·) →
      (((a :: ss).zip ss).map (fun p => slice l p.1 p.2)).flatten
        ++ l.drop ((a :: ss).getLastD 0) = l.drop a := by
  intro ss
  induction ss with
  | nil => intro a _; simp [slice]
  | cons b t ih =>
    intro a hp
    have hab : a ≤ b := (List.pairwise_cons.mp hp).1 b (by simp)
    have htl : (b :: t).Pairwise (· ≤ ·) := (List.pairwise_cons.mp hp).2
    have hgl : (a :: b :: t).getLastD 0 = (b :: t).getLastD 0 :=
      getLastD_cons_of_ne a 0 (b :: t) (by simp)
    simp only [List.zip_cons_cons, List.map_cons, List.flatten_cons, hgl]
    rw [List.append_assoc, ih b htl]
    rw [slice]
    have hdrop : l.drop b = (l.drop a).drop (b - a) := by
      rw [List.drop_drop]
      congr 1
      omega
    rw [hdrop, List.take_append_drop]

theorem slice_length {α : Type} (l : List α) (a b : ℕ) (hb : b ≤ l.length) :
    (slice l a b).length = b - a := by
  simp only [slice, List.length_take, List.length_drop]
  omega

theorem slice_getElem? {α : Type} (l : List α) (a b i : ℕ) (h : i < b - a) :
    (slice l a b)[i]? = l[a + i]? := by
  rw [slice, List.getElem?_take_of_lt h, List.getElem?_drop]

theorem slice_head? {α : Type} (l : List α) (a b : ℕ) (hab : a < b) :
    (slice l a b).head? = l[a]? := by
  rw [List.head?_eq_getElem?, slice_getElem? l a b 0 (by omega), Nat.add_zero]

theorem slice_getLast? {α : Type} (l : List α) (a b : ℕ) (hab : a < b) (hb : b ≤ l.length) :
    (slice l a b).getLast? = l[b - 1]? := by
  rw [List.getLast?_eq_getElem?, slice_length l a b hb,
    slice_getElem? l a b (b - a - 1) (by omega)]
  congr 1
  omega

/-- A consecutive pair inside a slice comes from a consecutive pair of the
underlying list, at a position strictly inside the slice range. -/
theorem slice_zip_tail {α : Type} {l : List α} {a b : ℕ} {x y : α}
    (h : (x, y) ∈ (slice l a b).zip (slice l a b).tail) :
    ∃ j, a ≤ j ∧ j + 1 < b ∧ l[j]? = some x ∧ l[j + 1]? = some y := by
  obtain ⟨i, hx, hy⟩ := mem_zip_tail h
  have hlen0 : i + 1 < (slice l a b).length := by
    by_contra hcon
    rw [List.getElem?_eq_none (by omega)] at hy
    exact Option.noConfusion hy
  have hlen : i + 1 < b - a := by
    simp only [slice, List.length_take, List.length_drop] at hlen0
    omega
  refine ⟨a + i, by omega, by omega, ?_, ?_⟩
  · rw [← slice_getElem? l a b i (by omega)]
    exact hx
  · rw [show a + i + 1 = a + (i + 1) by omega, ← slice_getElem? l a b (i + 1) (by omega)]
    exact hy

/-- A consecutive pair inside a suffix comes from a consecutive pair of the
underlying list, at a position at or after the suffix start. -/
theorem drop_zip_tail {α : Type} {l : List α} {s : ℕ} {x y : α}
    (h : (x, y) ∈ (l.drop s).zip (l.drop s).tail) :
    ∃ j, s ≤ j ∧ l[j]? = some x ∧ l[j + 1]? = some y := by
  obtain ⟨i, hx, hy⟩ := mem_zip_tail h
  rw [List.getElem?_drop] at hx hy
  refine ⟨s + i, by omega, hx, ?_⟩
  rw [show s + i + 1 = s + (i + 1) by omega]
  exact hy

theorem succ_mem_contStarts {ts : List ℚ} {tj : ℚ} {j : ℕ} (hj : j + 1 < ts.length)
    (hgap : tj < (gaps ts).getD j 0) : j + 1 ∈ contStarts ts tj := by
  rw [contStarts]
  exact List.mem_cons.mpr (Or.inr (List.mem_map.mpr
    ⟨j, mem_jumps.mpr ⟨by omega, hgap⟩, rfl⟩))

theorem succ_mem_boundsOf {rows : List Row} {dT : ℚ} {j : ℕ} (hj : j + 1 < rows.length)
    (hgap : dT < (gaps (rows.map Prod.fst)).getD j 0) : j + 1 ∈ boundsOf rows dT := by
  rw [boundsOf]
  refine List.mem_cons.mpr (Or.inr (List.mem_append.mpr (Or.inl ?_)))
  refine List.mem_map.mpr ⟨j, mem_jumps.mpr ⟨?_, hgap⟩, rfl⟩
  rw [List.length_map]
  omega

theorem map_fst_getD (rows : List Row) (j : ℕ) {r : Row} (hr : rows[j]? = some r) :
    (rows.map Prod.fst).getD j 0 = r.1 := by
  obtain ⟨hj, hr'⟩ := List.getElem?_eq_some_iff.mp hr
  rw [List.getD_eq_getElem _ _ (by simpa using hj), List.getElem_map, hr']

/-- No inter-sample gap strictly inside a candidate segment of
`assign_segments` exceeds `dT`. -/
theorem seg_gap_le {rows : List Row} {dT : ℚ} {a b j : ℕ}
    (hmem : (a, b) ∈ segPairs rows dT) (hne : rows ≠ [])
    (hja : a ≤ j) (hjb : j + 1 < b) (hj : j + 1 < rows.length) :
    (rows.map Prod.fst).getD (j + 1) 0 - (rows.map Prod.fst).getD j 0 ≤ dT := by
  by_contra hcon
  push_neg at hcon
  have hgap : dT < (gaps (rows.map Prod.fst)).getD j 0 := by
    rw [gaps_getD _ j (by simpa using hj)]
    exact hcon
  have hmem' := succ_mem_boundsOf hj hgap
  have hpw := boundsOf_pairwise rows dT hne
  have hside := (pairwise_zip_tail hpw hmem).2 (j + 1) hmem'
  omega

/-- Concatenating all candidate-segment slices of `assign_segments` recovers
the input frame. -/
theorem segPairs_flatten (rows : List Row) (dT : ℚ) (hne : rows ≠ []) :
    ((segPairs rows dT).map (fun p => slice rows p.1 p.2)).flatten = rows := by
  have hpw : (boundsOf rows dT).Pairwise (· ≤ ·) :=
    (boundsOf_pairwise rows dT hne).imp (fun h => le_of_lt h)
  have h3 := flatten_slices rows
    ((jumps (rows.map Prod.fst) dT).map (· + 1) ++ [rows.length]) 0 (by rwa [← boundsOf])
  have hlast : ((0 : ℕ) :: ((jumps (rows.map Prod.fst) dT).map (· + 1)
      ++ [rows.length])).getLastD 0 = rows.length := by
    rw [show (0 : ℕ) :: ((jumps (rows.map Prod.fst) dT).map (· + 1) ++ [rows.length])
        = ((0 : ℕ) :: (jumps (rows.map Prod.fst) dT).map (· + 1)) ++ [rows.length] from rfl,
      List.getLastD_eq_getLast?, List.getLast?_concat]
    rfl
  rw [hlast, List.drop_length, List.append_nil, List.drop_zero] at h3
  rw [segPairs, boundsOf]
  exact h3

theorem flatten_map_sublist {α β : Type} (f : α → List β) {l₁ l₂ : List α}
    (h : l₁.Sublist l₂) : (l₁.map f).flatten.Sublist (l₂.map f).flatten := by
  induction h with
  | slnil => simp
  | cons a h ih => simpa using ih.trans (List.sublist_append_right _ _)
  | cons₂ a h ih => simpa using ih.append_left (f a)

theorem mem_le_getLastD : ∀ {l : List ℕ}, l.Pairwise (· < ·) → ∀ {x : ℕ}, x ∈ l →
    x ≤ l.getLastD 0
  | [], _, x, hx => by simp at hx
  | [a], _, x, hx => by
    simp only [List.mem_singleton] at hx
    subst hx
    rfl
  | a :: b :: t, hl, x, hx => by
    have hpw := List.pairwise_cons.mp hl
    rw [getLastD_cons_of_ne a 0 (b :: t) (by simp)]
    rcases List.mem_cons.mp hx with rfl | hx'
    · have hab : x < b := hpw.1 b (by simp)
      have hble : b ≤ (b :: t).getLastD 0 := mem_le_getLastD hpw.2 (by simp)
      omega
    · exact mem_le_getLastD hpw.2 hx'

theorem getLastD_mem {α : Type} (a : α) (l : List α) (d : α) : (a :: l).getLastD d ∈ a :: l := by
  induction l generalizing a with
  | nil => simp [List.getLastD]
  | cons b t ih =>
    rw [getLastD_cons_of_ne a d (b :: t) (by simp)]
    exact List.mem_cons_of_mem a (ih b)

theorem getLastD_eq_getD_last (l : List ℕ) (h : l ≠ []) :
    l.getLastD 0 = l.getD (l.length - 1) 0 := by
  rw [List.getLastD_eq_getLast?, List.getLast?_eq_getElem?, List.getD_eq_getElem?_getD]

theorem head?_drop {α : Type} (l : List α) (n : ℕ) : (l.drop n).head? = l[n]? := by
  rw [List.head?_eq_getElem?, List.getElem?_drop, Nat.add_zero]

theorem zip_tail_getD (l : List ℕ) (i : ℕ) (hi : i + 1 < l.length) :
    (l.zip l.tail)[i]? = some (l.getD i 0, l.getD (i + 1) 0) := by
  have h2 : i < l.tail.length := by
    rw [List.length_tail]
    omega
  have hlen : i < (l.zip l.tail).length := by
    rw [List.length_zip, List.length_tail]
    omega
  rw [List.getElem?_eq_getElem hlen]
  congr 1
  rw [List.getElem_zip]
  rw [List.getD_eq_getElem l 0 (by omega), List.getD_eq_getElem l 0 hi]
  congr 1
  exact List.getElem_tail l i h2

theorem contStarts_mem_lt {rows : List Row} {tj : ℚ} {x : ℕ} (hne : rows ≠ [])
    (hx : x ∈ contStarts (rows.map Prod.fst) tj) : x < rows.length := by
  have hn : 0 < rows.length := List.length_pos.mpr hne
  rw [contStarts] at hx
  rcases List.mem_cons.mp hx with rfl | hx'
  · exact hn
  · obtain ⟨j, hj, rfl⟩ := List.mem_map.mp hx'
    have hje := mem_jumps.mp hj
    rw [List.length_map] at hje
    omega

/-- No inter-sample gap strictly inside a continuous segment of
`get_continuous_segments` exceeds `tjump`. -/
theorem cont_gap_le {rows : List Row} {tj : ℚ} {a b j : ℕ}
    (hmem : (a, b) ∈ (contStarts (rows.map Prod.fst) tj).zip
      (contStarts (rows.map Prod.fst) tj).tail)
    (hja : a ≤ j) (hjb : j + 1 < b) (hj : j + 1 < rows.length) :
    (rows.map Prod.fst).getD (j + 1) 0 - (rows.map Prod.fst).getD j 0 ≤ tj := by
  by_contra hcon
  push_neg at hcon
  have hgap : tj < (gaps (rows.map Prod.fst)).getD j 0 := by
    rw [gaps_getD _ j (by simpa using hj)]
    exact hcon
  have hmem' := succ_mem_contStarts (by simpa using hj) hgap
  have hside := (pairwise_zip_tail (contStarts_pairwise _ _) hmem).2 (j + 1) hmem'
  omega

/-- No inter-sample gap in the final continuous segment exceeds `tjump`. -/
theorem tail_gap_le {rows : List Row} {tj : ℚ} {j : ℕ}
    (hj : j + 1 < rows.length)
    (hge : (contStarts (rows.map Prod.fst) tj).getLastD 0 ≤ j) :
    (rows.map Prod.fst).getD (j + 1) 0 - (rows.map Prod.fst).getD j 0 ≤ tj := by
  by_contra hcon
  push_neg at hcon
  have hgap : tj < (gaps (rows.map Prod.fst)).getD j 0 := by
    rw [gaps_getD _ j (by simpa using hj)]
    exact hcon
  have hmem := succ_mem_contStarts (by simpa using hj) hgap
  have := mem_le_getLastD (contStarts_pairwise _ _) hmem
  omega

/-- The samples at positions `b - 1` and `b`, where `b` is a continuity-break
start, are more than `tjump` apart. -/
theorem cross_gap {rows : List Row} {tj : ℚ} {b : ℕ}
    (hb : b ∈ (jumps (rows.map Prod.fst) tj).map (· + 1))
    {x y : Row} (hx : rows[b - 1]? = some x) (hy : rows[b]? = some y) :
    tj < y.1 - x.1 := by
  obtain ⟨j, hj, rfl⟩ := List.mem_map.mp hb
  have hje := mem_jumps.mp hj
  have hn : j + 1 < rows.length := (List.getElem?_eq_some_iff.mp hy).1
  have hgap := hje.2
  rw [gaps_getD _ j (by simpa using hn)] at hgap
  rw [map_fst_getD rows (j + 1) hy, map_fst_getD rows j (by simpa using hx)] at hgap
  exact hgap

/-! ### C1: `assign_segments` -/

/-- Claim C1: on a time-ordered series, a successful `assign_segments` run
returns a relabelled sublist of the input rows (so at most as many rows as
the input), organised as consecutive non-empty blocks labelled `0, 1, 2, …`
in temporal order, where inside a block every consecutive inter-sample gap is
at most `dT` and every block spans strictly more than `dur_th` seconds. -/
theorem assign_segments_spec (rows : List Row) (dur_th dT : ℚ) (out : List (Row × ℕ))
    (hsort : (rows.map Prod.fst).Pairwise (· < ·))
    (hout : assign_segments rows dur_th dT = some out) :
    ∃ blocks : List (List Row),
      out = (blocks.enum.map (fun q => q.2.map (fun r => (r, q.1)))).flatten ∧
      blocks ≠ [] ∧
      (∀ b ∈ blocks, b ≠ []) ∧
      (out.map Prod.fst).Sublist rows ∧
      out.length ≤ rows.length ∧
      (∀ b ∈ blocks, ∀ x y : Row, (x, y) ∈ b.zip b.tail → y.1 - x.1 ≤ dT) ∧
      (∀ b ∈ blocks, ∀ x y : Row, b.head? = some x → b.getLast? = some y →
        dur_th < y.1 - x.1) := by
  rw [assign_segments] at hout
  split_ifs at hout with h1 h2
  have hne : rows ≠ [] := by simpa using h1
  have hkne : keptPairs rows dur_th dT ≠ [] := by simpa using h2
  have hout' : out = ((keptPairs rows dur_th dT).enum.map
      (fun q => (slice rows q.2.1 q.2.2).map (fun r => (r, q.1)))).flatten :=
    (Option.some.inj hout).symm
  have hkey : ∀ p ∈ keptPairs rows dur_th dT, p.1 < p.2 ∧ p.2 ≤ rows.length ∧
      (p.1, p.2) ∈ segPairs rows dT ∧
      dur_th < (rows.map Prod.fst).getD (p.2 - 1) 0 - (rows.map Prod.fst).getD p.1 0 := by
    intro p hp
    have hmem : p ∈ segPairs rows dT := List.mem_of_mem_filter hp
    have hcond := List.of_mem_filter hp
    simp only [decide_eq_true_eq] at hcond
    have hzip : (p.1, p.2) ∈ segPairs rows dT := by simpa using hmem
    have hpw := boundsOf_pairwise rows dT hne
    have hlt := (pairwise_zip_tail hpw hzip).1
    have hble : p.2 ≤ rows.length := boundsOf_mem_le (zip_tail_mem hzip).2
    exact ⟨hlt, hble, hzip, hcond⟩
  have hmapfst : out.map Prod.fst =
      ((keptPairs rows dur_th dT).map (fun p => slice rows p.1 p.2)).flatten := by
    rw [hout', List.map_flatten, List.map_map]
    congr 1
    calc (keptPairs rows dur_th dT).enum.map
          ((List.map Prod.fst) ∘ (fun q => (slice rows q.2.1 q.2.2).map (fun r => (r, q.1))))
        = (keptPairs rows dur_th dT).enum.map (fun q => slice rows q.2.1 q.2.2) := by
          apply List.map_congr_left
          intro q _
          show ((slice rows q.2.1 q.2.2).map (fun r => (r, q.1))).map Prod.fst
              = slice rows q.2.1 q.2.2
          rw [List.map_map, show (Prod.fst ∘ fun r : Row => (r, q.1)) = id from rfl,
            List.map_id]
      _ = ((keptPairs rows dur_th dT).enum.map Prod.snd).map (fun p => slice rows p.1 p.2) := by
          rw [List.map_map]
          rfl
      _ = (keptPairs rows dur_th dT).map (fun p => slice rows p.1 p.2) := by
          rw [List.enum_map_snd]
  have hsub : ((keptPairs rows dur_th dT).map (fun p => slice rows p.1 p.2)).flatten.Sublist
      rows := by
    have h5 := flatten_map_sublist (fun p : ℕ × ℕ => slice rows p.1 p.2)
      (List.filter_sublist (l := segPairs rows dT)
        (p := fun p => decide (dur_th <
          (rows.map Prod.fst).getD (p.2 - 1) 0 - (rows.map Prod.fst).getD p.1 0)))
    rw [segPairs_flatten rows dT hne] at h5
    exact h5
  refine ⟨(keptPairs rows dur_th dT).map (fun p => slice rows p.1 p.2), ?_, ?_, ?_, ?_, ?_,
    ?_, ?_⟩
  · rw [hout']
    congr 1
    rw [List.enum_map, List.map_map]
    apply List.map_congr_left
    rintro ⟨i, p⟩ _
    rfl
  · intro hcon
    exact hkne (by simpa using hcon)
  · intro b hb
    obtain ⟨p, hp, rfl⟩ := List.mem_map.mp hb
    obtain ⟨hlt, hble, -, -⟩ := hkey p hp
    apply List.ne_nil_of_length_pos
    rw [slice_length _ _ _ hble]
    omega
  · rw [hmapfst]
    exact hsub
  · calc out.length = (out.map Prod.fst).length := (List.length_map _ _).symm
      _ ≤ rows.length := by rw [hmapfst]; exact hsub.length_le
  · intro b hb x y hxy
    obtain ⟨p, hp, rfl⟩ := List.mem_map.mp hb
    obtain ⟨hlt, hble, hzip, -⟩ := hkey p hp
    obtain ⟨j, hja, hjb, hjx, hjy⟩ := slice_zip_tail hxy
    have hjlen : j + 1 < rows.length := (List.getElem?_eq_some_iff.mp hjy).1
    have hle := seg_gap_le hzip hne hja hjb hjlen
    rwa [map_fst_getD rows (j + 1) hjy, map_fst_getD rows j hjx] at hle
  · intro b hb x y hhead hlast
    obtain ⟨p, hp, rfl⟩ := List.mem_map.mp hb
    obtain ⟨hlt, hble, -, hcond⟩ := hkey p hp
    rw [slice_head? rows p.1 p.2 hlt] at hhead
    rw [slice_getLast? rows p.1 p.2 hlt hble] at hlast
    rwa [map_fst_getD rows (p.2 - 1) hlast, map_fst_getD rows p.1 hhead] at hcond

/-! ### C2: `get_continuous_segments` -/

/-- Claim C2: on a time-ordered series, `get_continuous_segments` returns
sub-series whose concatenation is exactly the input (no sample lost or
duplicated), with every within-sub-series consecutive gap at most `tjump` and
the gap between the last sample of one sub-series and the first sample of the
next strictly above `tjump`; for a non-empty input every returned sub-series
is non-empty. -/
theorem get_continuous_segments_spec (rows : List Row) (tjump : ℚ)
    (hsort : (rows.map Prod.fst).Pairwise (· < ·)) :
    (get_continuous_segments rows tjump).flatten = rows ∧
    (rows ≠ [] → ∀ seg ∈ get_continuous_segments rows tjump, seg ≠ []) ∧
    (∀ seg ∈ get_continuous_segments rows tjump,
      ∀ x y : Row, (x, y) ∈ seg.zip seg.tail → y.1 - x.1 ≤ tjump) ∧
    (∀ s t, (s, t) ∈ (get_continuous_segments rows tjump).zip
        (get_continuous_segments rows tjump).tail →
      ∀ x y : Row, s.getLast? = some x → t.head? = some y → tjump < y.1 - x.1) := by
  have hpw := contStarts_pairwise (rows.map Prod.fst) tjump
  have hcons : contStarts (rows.map Prod.fst) tjump =
      0 :: (jumps (rows.map Prod.fst) tjump).map (· + 1) := rfl
  refine ⟨?_, ?_, ?_, ?_⟩
  · show (((contStarts (rows.map Prod.fst) tjump).zip
        (contStarts (rows.map Prod.fst) tjump).tail).map (fun p => slice rows p.1 p.2)
        ++ [rows.drop ((contStarts (rows.map Prod.fst) tjump).getLastD 0)]).flatten = rows
    rw [List.flatten_append]
    simp only [List.flatten_cons, List.flatten_nil, List.append_nil]
    have h3 := flatten_slices rows ((jumps (rows.map Prod.fst) tjump).map (· + 1)) 0
      (hpw.imp (fun h => le_of_lt h))
    rw [List.drop_zero] at h3
    exact h3
  · intro hne seg hseg
    rcases List.mem_append.mp hseg with hseg | hseg
    · obtain ⟨p, hp, rfl⟩ := List.mem_map.mp hseg
      have hp' : (p.1, p.2) ∈ (contStarts (rows.map Prod.fst) tjump).zip
          (contStarts (rows.map Prod.fst) tjump).tail := by simpa using hp
      have hlt := (pairwise_zip_tail hpw hp').1
      have hmem := zip_tail_mem hp'
      have ha := contStarts_mem_lt hne hmem.1
      apply List.ne_nil_of_length_pos
      simp only [slice, List.length_take, List.length_drop]
      omega
    · rw [List.mem_singleton] at hseg
      subst hseg
      have hmem : (contStarts (rows.map Prod.fst) tjump).getLastD 0
          ∈ contStarts (rows.map Prod.fst) tjump := by
        rw [hcons]
        exact getLastD_mem 0 _ 0
      have hlt := contStarts_mem_lt hne hmem
      apply List.ne_nil_of_length_pos
      rw [List.length_drop]
      omega
  · intro seg hseg x y hxy
    rcases List.mem_append.mp hseg with hseg | hseg
    · obtain ⟨p, hp, rfl⟩ := List.mem_map.mp hseg
      have hp' : (p.1, p.2) ∈ (contStarts (rows.map Prod.fst) tjump).zip
          (contStarts (rows.map Prod.fst) tjump).tail := by simpa using hp
      obtain ⟨j, hja, hjb, hjx, hjy⟩ := slice_zip_tail hxy
      have hjlen : j + 1 < rows.length := (List.getElem?_eq_some_iff.mp hjy).1
      have hle := cont_gap_le hp' hja hjb hjlen
      rwa [map_fst_getD rows (j + 1) hjy, map_fst_getD rows j hjx] at hle
    · rw [List.mem_singleton] at hseg
      subst hseg
      obtain ⟨j, hjge, hjx, hjy⟩ := drop_zip_tail hxy
      have hjlen : j + 1 < rows.length := (List.getElem?_eq_some_iff.mp hjy).1
      have hle := tail_gap_le hjlen hjge
      rwa [map_fst_getD rows (j + 1) hjy, map_fst_getD rows j hjx] at hle
  · intro s t hst x y hlast hhead
    by_cases hne : rows = []
    · subst hne
      simp [get_continuous_segments, contStarts, jumps, gaps, slice] at hst
    · obtain ⟨i, hsi, hti⟩ := mem_zip_tail hst
      have hsslen : 0 < (contStarts (rows.map Prod.fst) tjump).length := by
        rw [hcons]
        simp
      have hPlen : (((contStarts (rows.map Prod.fst) tjump).zip
          (contStarts (rows.map Prod.fst) tjump).tail).map
            (fun p => slice rows p.1 p.2)).length
          = (contStarts (rows.map Prod.fst) tjump).length - 1 := by
        rw [List.length_map, List.length_zip, List.length_tail]
        omega
      have hreslen : (get_continuous_segments rows tjump).length
          = (contStarts (rows.map Prod.fst) tjump).length := by
        show ((((contStarts (rows.map Prod.fst) tjump).zip
          (contStarts (rows.map Prod.fst) tjump).tail).map (fun p => slice rows p.1 p.2))
          ++ [rows.drop ((contStarts (rows.map Prod.fst) tjump).getLastD 0)]).length = _
        rw [List.length_append, hPlen]
        simp only [List.length_singleton]
        omega
      have hti_lt : i + 1 < (contStarts (rows.map Prod.fst) tjump).length := by
        have := (List.getElem?_eq_some_iff.mp hti).1
        rwa [hreslen] at this
      have hs_eq : s = slice rows ((contStarts (rows.map Prod.fst) tjump).getD i 0)
          ((contStarts (rows.map Prod.fst) tjump).getD (i + 1) 0) := by
        have hix : (get_continuous_segments rows tjump)[i]? =
            (((contStarts (rows.map Prod.fst) tjump).zip
              (contStarts (rows.map Prod.fst) tjump).tail).map
                (fun p => slice rows p.1 p.2))[i]? :=
          List.getElem?_append_left (by rw [hPlen]; omega)
        rw [hix, List.getElem?_map, zip_tail_getD _ i hti_lt] at hsi
        simp only [Option.map_some'] at hsi
        exact (Option.some.inj hsi).symm
      have hb_mem_ss : (contStarts (rows.map Prod.fst) tjump).getD (i + 1) 0
          ∈ contStarts (rows.map Prod.fst) tjump := by
        rw [List.getD_eq_getElem _ 0 hti_lt]
        exact List.getElem_mem _
      have hb_lt : (contStarts (rows.map Prod.fst) tjump).getD (i + 1) 0 < rows.length :=
        contStarts_mem_lt hne hb_mem_ss
      have hab : (contStarts (rows.map Prod.fst) tjump).getD i 0
          < (contStarts (rows.map Prod.fst) tjump).getD (i + 1) 0 := by
        have h := List.pairwise_iff_getElem.mp hpw i (i + 1) (by omega) hti_lt (by omega)
        rwa [List.getD_eq_getElem _ 0 (by omega : i < (contStarts (rows.map Prod.fst)
          tjump).length), List.getD_eq_getElem _ 0 hti_lt]
      rw [hs_eq, slice_getLast? rows _ _ hab (by omega)] at hlast
      have hy : rows[(contStarts (rows.map Prod.fst) tjump).getD (i + 1) 0]? = some y := by
        rcases Nat.lt_or_ge (i + 1 + 1) (contStarts (rows.map Prod.fst) tjump).length
          with hA | hB
        · have hix : (get_continuous_segments rows tjump)[i + 1]? =
              (((contStarts (rows.map Prod.fst) tjump).zip
                (contStarts (rows.map Prod.fst) tjump).tail).map
                  (fun p => slice rows p.1 p.2))[i + 1]? :=
            List.getElem?_append_left (by rw [hPlen]; omega)
          rw [hix, List.getElem?_map, zip_tail_getD _ (i + 1) hA] at hti
          simp only [Option.map_some'] at hti
          have ht_eq := (Option.some.inj hti).symm
          have hab2 : (contStarts (rows.map Prod.fst) tjump).getD (i + 1) 0
              < (contStarts (rows.map Prod.fst) tjump).getD (i + 2) 0 := by
            have h := List.pairwise_iff_getElem.mp hpw (i + 1) (i + 2) hti_lt hA (by omega)
            rwa [List.getD_eq_getElem _ 0 hti_lt, List.getD_eq_getElem _ 0 hA]
          rw [ht_eq, slice_head? rows _ _ hab2] at hhead
          exact hhead
        · have hix : (get_continuous_segments rows tjump)[i + 1]? =
              some (rows.drop ((contStarts (rows.map Prod.fst) tjump).getLastD 0)) := by
            show ((((contStarts (rows.map Prod.fst) tjump).zip
              (contStarts (rows.map Prod.fst) tjump).tail).map (fun p => slice rows p.1 p.2))
              ++ [rows.drop ((contStarts (rows.map Prod.fst) tjump).getLastD 0)])[i + 1]? = _
            rw [List.getElem?_append_right (by rw [hPlen]; omega), hPlen]
            have hidx : i + 1 - ((contStarts (rows.map Prod.fst) tjump).length - 1) = 0 := by
              omega
            rw [hidx]
            rfl
          rw [hix] at hti
          have ht_eq := (Option.some.inj hti).symm
          have hlasteq : (contStarts (rows.map Prod.fst) tjump).getLastD 0
              = (contStarts (rows.map Prod.fst) tjump).getD (i + 1) 0 := by
            rw [getLastD_eq_getD_last _ (by rw [hcons]; simp)]
            congr 1
            omega
          rw [ht_eq, hlasteq, head?_drop] at hhead
          exact hhead
      have hb_js : (contStarts (rows.map Prod.fst) tjump).getD (i + 1) 0
          ∈ (jumps (rows.map Prod.fst) tjump).map (· + 1) := by
        have hstep : (contStarts (rows.map Prod.fst) tjump).getD (i + 1) 0
            = ((jumps (rows.map Prod.fst) tjump).map (· + 1)).getD i 0 := by
          rw [hcons]
          rfl
        have hjslen : i < ((jumps (rows.map Prod.fst) tjump).map (· + 1)).length := by
          have : (contStarts (rows.map Prod.fst) tjump).length
              = ((jumps (rows.map Prod.fst) tjump).map (· + 1)).length + 1 := by
            rw [hcons]
            rfl
          omega
        rw [hstep, List.getD_eq_getElem _ 0 hjslen]
        exact List.getElem_mem _
      exact cross_gap hb_js hlast hy

/-- Witness for `get_continuous_segments_spec` on a two-row frame with a
2-second jump and `tjump = 1`. -/
theorem get_continuous_segments_spec_witness :
    (get_continuous_segments [((0 : ℚ), 1), (2, 2)] 1).flatten = [((0 : ℚ), 1), (2, 2)] :=
  (get_continuous_segments_spec [((0 : ℚ), 1), (2, 2)] 1 (by norm_num [List.pairwise_cons])).1

/-- Witness for `assign_segments_spec` on the two-row frame
`[(0, 5), (1, 6)]` with `dur_th = 1/2`, `dT = 1`. -/
theorem assign_segments_spec_witness :
    ([(((0 : ℚ), (5 : ℚ)), 0), (((1 : ℚ), (6 : ℚ)), 0)] : List (Row × ℕ)).length
      ≤ ([((0 : ℚ), 5), (1, 6)] : List Row).length := by
  have hsort : (([((0 : ℚ), 5), (1, 6)] : List Row).map Prod.fst).Pairwise (· < ·) := by
    norm_num [List.pairwise_cons]
  have heval : assign_segments [((0 : ℚ), 5), (1, 6)] (1 / 2) 1 =
      some [(((0 : ℚ), 5), 0), (((1 : ℚ), 6), 0)] := by
    norm_num [assign_segments, keptPairs, segPairs, boundsOf, jumps, gaps, slice,
      List.filter, List.enum, List.enumFrom]
  obtain ⟨blocks, hb⟩ := assign_segments_spec _ _ _ _ hsort heval
  exact hb.2.2.2.2.1

/-! ### C3: `resample` -/

theorem resampleSeg_eq (w : ℚ) (seg : List Row) (r0 r1 : Row)
    (h0 : seg.head? = some r0) (h1 : seg.getLast? = some r1) :
    resampleSeg w seg =
      (List.range (binIdx w r1.1 - binIdx w r0.1 + 1).toNat).map (fun (i : ℕ) =>
        (((binIdx w r0.1 + (i : ℤ)) : ℚ) * w,
         binMean ((seg.filter
           (fun r => binIdx w r.1 = binIdx w r0.1 + (i : ℤ))).map Prod.snd))) := by
  rw [resampleSeg, h0, h1]

/-- With a positive bin width, membership of bin `k` is exactly the
right-closed interval `((k-1)w, kw]`. -/
theorem binIdx_eq_iff {w t : ℚ} (hw : 0 < w) (k : ℤ) :
    binIdx w t = k ↔ (k : ℚ) * w - w < t ∧ t ≤ (k : ℚ) * w := by
  rw [binIdx, Int.ceil_eq_iff, lt_div_iff hw, div_le_iff hw]
  constructor
  · rintro ⟨h1, h2⟩
    constructor <;> nlinarith
  · rintro ⟨h1, h2⟩
    constructor <;> nlinarith

/-- Claim C3 (amended): `resample` resamples each continuous segment
independently and concatenates; within one segment the output labels advance
by exactly `w = round2 (1/new_fs)` (the bin width the source actually uses),
and each output row is the mean over the right-closed bin `(L - w, L]`
labelled by its right edge `L`. -/
theorem resample_spec (rows : List Row) (new_fs w : ℚ)
    (hw : w = round2 (1 / new_fs)) (hwpos : 0 < w) :
    resample rows new_fs = ((get_continuous_segments rows 1).map (resampleSeg w)).flatten ∧
    (∀ seg ∈ get_continuous_segments rows 1,
      (∀ p q : ℚ × Option ℚ, (p, q) ∈ (resampleSeg w seg).zip (resampleSeg w seg).tail →
        q.1 - p.1 = w) ∧
      (∀ lv ∈ resampleSeg w seg,
        lv.2 = binMean ((seg.filter
          (fun r => lv.1 - w < r.1 ∧ r.1 ≤ lv.1)).map Prod.snd))) := by
  constructor
  · rw [hw]
    rfl
  intro seg _
  rcases hseg : seg.head? with _ | r0
  · have hnil : seg = [] := List.head?_eq_none_iff.mp hseg
    subst hnil
    constructor
    · intro p q hpq
      simp [resampleSeg] at hpq
    · intro lv hlv
      simp [resampleSeg] at hlv
  obtain ⟨r1, hseg1⟩ : ∃ r1, seg.getLast? = some r1 := by
    rcases h : seg.getLast? with _ | r1
    · rw [List.getLast?_eq_none_iff] at h
      subst h
      simp at hseg
    · exact ⟨r1, rfl⟩
  rw [resampleSeg_eq w seg r0 r1 hseg hseg1]
  constructor
  · intro p q hpq
    obtain ⟨i, hp, hq⟩ := mem_zip_tail hpq
    rw [List.getElem?_map] at hp hq
    have hqm : i + 1 < (binIdx w r1.1 - binIdx w r0.1 + 1).toNat := by
      by_contra hcon
      rw [List.getElem?_eq_none (by simpa using hcon)] at hq
      exact Option.noConfusion hq
    rw [List.getElem?_range (by omega)] at hp
    rw [List.getElem?_range hqm] at hq
    simp only [Option.map_some'] at hp hq
    have hp' := Option.some.inj hp
    have hq' := Option.some.inj hq
    rw [← hp', ← hq']
    push_cast
    ring
  · intro lv hlv
    obtain ⟨i, _, rfl⟩ := List.mem_map.mp hlv
    dsimp only
    congr 1
    apply congrArg
    apply List.filter_congr
    intro r _
    apply decide_eq_decide.mpr
    rw [binIdx_eq_iff hwpos]
    push_cast
    tauto

/-- Witness for `resample_spec` at `new_fs = 10` (where `round2 (1/10)` is
exactly `1/10`). -/
theorem resample_spec_witness :
    resample [((0 : ℚ), 3)] 10 =
      ((get_continuous_segments [((0 : ℚ), 3)] 1).map (resampleSeg (1 / 10))).flatten := by
  have hw : (1 : ℚ) / 10 = round2 (1 / 10) := by
    norm_num [round2]
  exact (resample_spec [((0 : ℚ), 3)] 10 (1 / 10) hw (by norm_num)).1

/-- Claim C3 as stated is false: at `new_fs = 30` the source resamples at
`round(1/30, 2) = 0.03` seconds, so consecutive output labels inside one
continuous segment differ by `3/100 ≠ 1/30`. -/
theorem resample_exact_spacing_cex :
    (get_continuous_segments [((1 : ℚ) / 100, 0), (1 / 20, 0)] 1).length = 1 ∧
    (resample [((1 : ℚ) / 100, 0), (1 / 20, 0)] 30).map Prod.fst = [3 / 100, 6 / 100] ∧
    ((6 : ℚ) / 100 - 3 / 100 ≠ 1 / 30) := by
  have hsegs : get_continuous_segments [((1 : ℚ) / 100, 0), (1 / 20, 0)] 1 =
      [[((1 : ℚ) / 100, 0), (1 / 20, 0)]] := by
    norm_num [get_continuous_segments, contStarts, jumps, gaps, slice, List.filter]
  have hround : round2 ((1 : ℚ) / 30) = 3 / 100 := by
    norm_num [round2]
  have hk0 : binIdx (3 / 100) ((1 : ℚ) / 100) = 1 := by
    norm_num [binIdx, Int.ceil_eq_iff]
  have hk1 : binIdx (3 / 100) ((1 : ℚ) / 20) = 2 := by
    norm_num [binIdx, Int.ceil_eq_iff]
  refine ⟨by rw [hsegs]; rfl, ?_, by norm_num⟩
  rw [resample]
  norm_num [hsegs, hround]
  rw [resampleSeg_eq (3 / 100) [((1 : ℚ) / 100, 0), (1 / 20, 0)]
    ((1 : ℚ) / 100, 0) ((1 : ℚ) / 20, 0) rfl rfl]
  rw [List.map_map]
  simp only [hk0, hk1]
  rw [show List.range ((2 - 1 + 1 : ℤ)).toNat = [0, 1] from rfl]
  simp only [List.map_cons, List.map_nil, Function.comp_apply]
  norm_num

/-! ### C5: `autcorr` -/

/-- The lag-0 term of the full autocorrelation is the sum of squares. -/
theorem acFull_zero (xh : List ℚ) : acFull xh 0 = (xh.map (fun v => v * v)).sum := by
  unfold acFull
  simpa using sum_range_getD xh (fun v => v * v)

/-- Zero mean squared deviation is exactly constancy at the mean. -/
theorem stdSq_eq_zero_iff (x : List ℚ) (hx : x ≠ []) :
    stdSq x = 0 ↔ ∀ v ∈ x, v = listMean x := by
  have hlen : (((centered x).map (fun v => v * v)).length : ℚ) ≠ 0 := by
    simp [centered, List.length_eq_zero, hx]
  have hs : stdSq x = ((centered x).map (fun v => v * v)).sum /
      ((((centered x).map (fun v => v * v)).length : ℕ) : ℚ) := rfl
  rw [hs, div_eq_zero_iff]
  simp only [hlen, or_false]
  rw [sum_sq_eq_zero_iff]
  constructor
  · intro h v hv
    have := h (v - listMean x) (by
      simp only [centered, List.mem_map]
      exact ⟨v, hv, rfl⟩)
    linarith
  · intro h w hw
    obtain ⟨v, hv, rfl⟩ := List.mem_map.mp hw
    have := h v hv
    linarith

/-- Claim C5: for a non-empty signal, `autcorr` of a zero-variance (constant)
signal is the all-zero vector of the input's length; otherwise it is the
lag-`≥ 0` part of the full autocorrelation normalised by the lag-0 value, and
its lag-0 element is exactly `1`. -/
theorem autcorr_spec (x : List ℚ) (hx : x ≠ []) :
    (autcorr x).length = x.length ∧
    ((∀ v ∈ x, v = listMean x) ↔ stdSq x = 0) ∧
    (stdSq x = 0 → autcorr x = List.replicate x.length 0) ∧
    (stdSq x ≠ 0 →
      autcorr x =
        (List.range x.length).map (fun k => acFull (centered x) k / acFull (centered x) 0) ∧
      (autcorr x).head? = some 1) := by
  refine ⟨?_, (stdSq_eq_zero_iff x hx).symm, ?_, ?_⟩
  · by_cases h : stdSq x = 0 <;> simp [autcorr, h]
  · intro h; simp [autcorr, h]
  · intro h
    have hurl : autcorr x =
        (List.range x.length).map (fun k => acFull (centered x) k / acFull (centered x) 0) := by
      simp [autcorr, h]
    refine ⟨hurl, ?_⟩
    have hac : acFull (centered x) 0 ≠ 0 := by
      intro h0
      apply h
      have hconst : ∀ v ∈ x, v = listMean x := by
        rw [acFull_zero, sum_sq_eq_zero_iff] at h0
        intro v hv
        have := h0 (v - listMean x) (by
          simp only [centered, List.mem_map]
          exact ⟨v, hv, rfl⟩)
        linarith
      exact (stdSq_eq_zero_iff x hx).mpr hconst
    obtain ⟨m, hm⟩ := Nat.exists_eq_succ_of_ne_zero (fun h0 => hx (List.length_eq_zero.mp h0))
    rw [hurl, hm, List.range_succ_eq_map]
    simp [div_self hac]

/-- Witness for `autcorr_spec` at the concrete signal `[0, 2]`. -/
theorem autcorr_spec_witness :
    (autcorr [0, 2]).length = 2 ∧ (stdSq [0, 2] ≠ 0 → (autcorr [0, 2]).head? = some 1) := by
  have h := autcorr_spec [0, 2] (by simp)
  exact ⟨h.1, fun hne => (h.2.2.2 hne).2⟩

/-! ### C9: `get_uluse_from_raters` -/

/-- A row whose mean is not exactly `0.5` gets the deterministic threshold
label whatever the coin stream is. -/
theorem get_uluse_getElem (ratings : List (List ℚ)) : ∀ (i : ℕ) (coins : List Bool)
    (r : List ℚ), ratings[i]? = some r → listMean r ≠ 1 / 2 →
    (get_uluse_from_raters ratings coins)[i]? = some (decide (1 / 2 < listMean r)) := by
  induction ratings with
  | nil => intro i coins r h; simp at h
  | cons a rs ih =>
    intro i coins r h hr
    cases i with
    | zero =>
      simp only [List.getElem?_cons_zero, Option.some.injEq] at h
      subst h
      rw [get_uluse_from_raters, if_neg hr]
      simp
    | succ n =>
      simp only [List.getElem?_cons_succ] at h
      rw [get_uluse_from_raters]
      by_cases hm : listMean a = 1 / 2
      · rw [if_pos hm]
        simpa using ih n coins.tail r h hr
      · rw [if_neg hm]
        simpa using ih n coins r h hr

/-- When no row mean is exactly `0.5` the output is the deterministic map of
threshold labels, for every coin stream. -/
theorem get_uluse_eq_map (ratings : List (List ℚ)) (h : ∀ r ∈ ratings, listMean r ≠ 1 / 2) :
    ∀ coins, get_uluse_from_raters ratings coins =
      ratings.map (fun r => decide (1 / 2 < listMean r)) := by
  induction ratings with
  | nil => intro coins; rfl
  | cons a rs ih =>
    intro coins
    rw [get_uluse_from_raters, if_neg (h a (by simp))]
    rw [ih (fun r hr => h r (List.mem_cons_of_mem a hr)) coins]
    simp

/-- Claim C9: when no row-wise mean equals exactly `0.5`,
`get_uluse_from_raters` is deterministic (any two coin streams give the same
output) and each label is the threshold of the row mean against `0.5`;
a row whose mean is not `0.5` gets its deterministic label under every coin
stream, so nondeterminism is confined to the rows with mean exactly `0.5`. -/
theorem get_uluse_from_raters_spec (ratings : List (List ℚ)) :
    ((∀ r ∈ ratings, listMean r ≠ 1 / 2) → ∀ c₁ c₂ : List Bool,
      get_uluse_from_raters ratings c₁ = get_uluse_from_raters ratings c₂ ∧
      get_uluse_from_raters ratings c₁ =
        ratings.map (fun r => decide (1 / 2 < listMean r))) ∧
    (∀ (i : ℕ) (r : List ℚ), ratings[i]? = some r → listMean r ≠ 1 / 2 →
      ∀ coins : List Bool,
        (get_uluse_from_raters ratings coins)[i]? = some (decide (1 / 2 < listMean r))) := by
  constructor
  · intro h c₁ c₂
    rw [get_uluse_eq_map ratings h c₁, get_uluse_eq_map ratings h c₂]
    exact ⟨rfl, rfl⟩
  · intro i r hi hr coins
    exact get_uluse_getElem ratings i coins r hi hr

/-- Witness for `get_uluse_from_raters_spec` at a concrete ratings matrix. -/
theorem get_uluse_from_raters_spec_witness :
    get_uluse_from_raters [[1, 1], [0, 0]] [true] =
      get_uluse_from_raters [[1, 1], [0, 0]] [false] ∧
    get_uluse_from_raters [[1, 1], [0, 0]] [true] = [true, false] := by
  have hmeans : ∀ r ∈ [[(1 : ℚ), 1], [0, 0]], listMean r ≠ 1 / 2 := by
    intro r hr
    simp only [List.mem_cons, List.mem_singleton, List.not_mem_nil, or_false] at hr
    rcases hr with rfl | rfl <;> norm_num [listMean]
  have h := (get_uluse_from_raters_spec [[1, 1], [0, 0]]).1 hmeans [true] [false]
  refine ⟨h.1, ?_⟩
  rw [h.2]
  norm_num [listMean]

/-! ### LOSO split machinery (C6, C10) -/

theorem sortedSubjects_perm (keys : List ℤ) : (sortedSubjects keys).Perm keys.dedup :=
  List.mergeSort_perm keys.dedup _

theorem sortedSubjects_nodup (keys : List ℤ) : (sortedSubjects keys).Nodup :=
  ((sortedSubjects_perm keys).nodup_iff).mpr keys.nodup_dedup

theorem mem_sortedSubjects {keys : List ℤ} {s : ℤ} : s ∈ sortedSubjects keys ↔ s ∈ keys := by
  rw [(sortedSubjects_perm keys).mem_iff, List.mem_dedup]

theorem sortedSubjects_length (keys : List ℤ) :
    (sortedSubjects keys).length = keys.dedup.length :=
  (sortedSubjects_perm keys).length_eq

/-- Filtering a list by each key of a duplicate-free covering key list and
concatenating recovers the list up to permutation. -/
theorem flatten_filter_key_perm {α : Type} (key : α → ℤ) :
    ∀ (ks : List ℤ) (l : List α), ks.Nodup → (∀ r ∈ l, key r ∈ ks) →
      ((ks.map (fun s => l.filter (fun r => key r = s))).flatten).Perm l := by
  intro ks
  induction ks with
  | nil =>
    intro l _ hcov
    cases l with
    | nil => simp
    | cons a t => exact absurd (hcov a (by simp)) (by simp)
  | cons s ks ih =>
    intro l hnd hcov
    simp only [List.map_cons, List.flatten_cons]
    have hre : ks.map (fun s' => l.filter (fun r => key r = s')) =
        ks.map (fun s' => (l.filter (fun r => ¬ key r = s)).filter (fun r => key r = s')) := by
      apply List.map_congr_left
      intro s' hs'
      have hne : s ≠ s' := by
        rintro rfl
        exact (List.nodup_cons.mp hnd).1 hs'
      rw [List.filter_filter]
      apply List.filter_congr
      intro a _
      have hne' : ¬ s' = s := fun h => hne h.symm
      by_cases hk : key a = s'
      · simp [hk, hne']
      · simp [hk]
    rw [hre]
    have hcov' : ∀ r ∈ l.filter (fun r => ¬ key r = s), key r ∈ ks := by
      intro r hr
      have hmem := List.mem_filter.mp hr
      have hks := hcov r hmem.1
      have hne : ¬ key r = s := by simpa using hmem.2
      simpa [hne] using hks
    have hperm := ih (l.filter (fun r => ¬ key r = s)) (List.nodup_cons.mp hnd).2 hcov'
    have happ := (List.Perm.append_left (l.filter (fun r => key r = s)) hperm)
    refine happ.trans ?_
    have hfp := List.filter_append_perm (fun r => decide (key r = s)) l
    have : l.filter (fun r => ¬ key r = s) = l.filter (fun r => !(decide (key r = s))) := by
      apply List.filter_congr
      intro a _
      simp [decide_not]
    rw [this]
    exact hfp

/-! ### C6: `outerloop_loso_split` -/

/-- Claim C6: the outer LOSO loop yields one fold per distinct subject; in
each fold the validation frame is exactly that subject's rows and the training
frame exactly the other subjects' rows; validation frames are pairwise
disjoint and their concatenation is the whole input up to permutation. -/
theorem outerloop_loso_split_spec (rows : List (ℤ × ℚ)) :
    (outerloop_loso_split rows).length = (rows.map Prod.fst).dedup.length ∧
    (∀ f ∈ outerloop_loso_split rows, ∃ s, s ∈ rows.map Prod.fst ∧
      f.2 = rows.filter (fun r => r.1 = s) ∧
      f.1 = rows.filter (fun r => ¬ r.1 = s)) ∧
    List.Pairwise (fun f g => ∀ r, r ∈ f.2 → r ∉ g.2) (outerloop_loso_split rows) ∧
    ((outerloop_loso_split rows).map Prod.snd).flatten.Perm rows := by
  refine ⟨?_, ?_, ?_, ?_⟩
  · simp [outerloop_loso_split, sortedSubjects_length]
  · intro f hf
    obtain ⟨s, hs, rfl⟩ := List.mem_map.mp hf
    exact ⟨s, mem_sortedSubjects.mp hs, rfl, rfl⟩
  · rw [outerloop_loso_split, List.pairwise_map]
    have hnd := sortedSubjects_nodup (rows.map Prod.fst)
    refine hnd.imp ?_
    intro s s' hss r hr hr'
    have h1 := (List.mem_filter.mp hr).2
    have h2 := (List.mem_filter.mp hr').2
    simp only [decide_eq_true_eq] at h1 h2
    exact hss (h1 ▸ h2)
  · rw [outerloop_loso_split, List.map_map]
    refine flatten_filter_key_perm Prod.fst (sortedSubjects (rows.map Prod.fst)) rows
      (sortedSubjects_nodup _) ?_
    intro r hr
    exact mem_sortedSubjects.mpr (List.mem_map.mpr ⟨r, hr, rfl⟩)

/-- Witness for `outerloop_loso_split_spec` at a concrete two-subject frame. -/
theorem outerloop_loso_split_spec_witness :
    (outerloop_loso_split [(1, 10), (2, 20), (1, 30)]).length = 2 ∧
    ((outerloop_loso_split [(1, 10), (2, 20), (1, 30)]).map Prod.snd).flatten.Perm
      [(1, 10), (2, 20), (1, 30)] := by
  have h := outerloop_loso_split_spec [(1, 10), (2, 20), (1, 30)]
  refine ⟨?_, h.2.2.2⟩
  rw [h.1]
  rfl

/-! ### C10: `innerloop_loso_split` -/

/-- Claim C10: the inner LOSO split (computed on a copy, so the pure embedding
never touches its input) yields one fold per distinct subject, whose
validation array is exactly the positional indices of that subject's rows,
whose training array is exactly the other rows' positions, the two being
disjoint and together a permutation of all row positions. -/
theorem innerloop_loso_split_spec (train_df : List (ℤ × ℚ)) :
    (innerloop_loso_split train_df).length = (train_df.map Prod.fst).dedup.length ∧
    (∀ f ∈ innerloop_loso_split train_df, ∃ s, s ∈ train_df.map Prod.fst ∧
      f.2 = (List.range train_df.length).filter (fun i => (train_df.getD i (0, 0)).1 = s) ∧
      f.1 = (List.range train_df.length).filter (fun i => ¬ (train_df.getD i (0, 0)).1 = s) ∧
      (∀ i ∈ f.2, i ∉ f.1) ∧
      (f.1 ++ f.2).Perm (List.range train_df.length)) := by
  constructor
  · simp [innerloop_loso_split, sortedSubjects_length]
  · intro f hf
    obtain ⟨s, hs, rfl⟩ := List.mem_map.mp hf
    refine ⟨s, mem_sortedSubjects.mp hs, rfl, rfl, ?_, ?_⟩
    · intro i hi hi'
      have h1 := (List.mem_filter.mp hi).2
      have h2 := (List.mem_filter.mp hi').2
      simp only [decide_eq_true_eq] at h1 h2
      exact h2 h1
    · refine List.perm_append_comm.trans ?_
      have hfp := List.filter_append_perm
        (fun i => decide ((train_df.getD i (0, 0)).1 = s)) (List.range train_df.length)
      have hneg : (List.range train_df.length).filter
            (fun i => ¬ (train_df.getD i (0, 0)).1 = s) =
          (List.range train_df.length).filter
            (fun i => !(decide ((train_df.getD i (0, 0)).1 = s))) := by
        apply List.filter_congr
        intro a _
        simp [decide_not]
      rw [hneg]
      exact hfp

/-- Witness for `innerloop_loso_split_spec` at a concrete two-subject frame. -/
theorem innerloop_loso_split_spec_witness :
    (innerloop_loso_split [(3, 1), (4, 2), (3, 5)]).length = 2 := by
  have h := innerloop_loso_split_spec [(3, 1), (4, 2), (3, 5)]
  rw [h.1]
  rfl

/-! ### C7: `genrate_ul_autocorr_summary` aggregation -/

/-- Claim C7 is violated by the code: the first block is stacked even though
its autocorrelation length 2 is below the cutoff `N = 3` (the length test is
only in the `elif` branch), and when a later block does satisfy the cutoff the
resulting `np.hstack` of a 2-row with a 3-row block raises (modelled `none`). -/
theorem genrate_ul_autocorr_summary_bug :
    aggregate_acorr 3 [[[1], [2]]] = some (some [[1], [2]]) ∧
    aggregate_acorr 3 [[[1], [2]], [[1], [2], [3]]] = none := by
  constructor <;> rfl

/-! ### C8: `assign_segments` on all-short input -/

/-- Claim C8 is violated by the code: when every candidate segment fails the
duration filter, `np.hstack([])` raises `ValueError` (modelled `none`) instead
of producing an empty frame; an empty input raises `IndexError` likewise. -/
theorem assign_segments_all_short_bug :
    assign_segments [((0 : ℚ), 0)] 1 (1 / 50) = none ∧
    assign_segments [((0 : ℚ), 0), (1 / 100, 5)] 1 (1 / 50) = none ∧
    assign_segments ([] : List Row) 1 (1 / 50) = none := by
  refine ⟨?_, ?_, rfl⟩
  · norm_num [assign_segments, keptPairs, segPairs, boundsOf, jumps, gaps, List.filter]
  · norm_num [assign_segments, keptPairs, segPairs, boundsOf, jumps, gaps, List.filter]

/-! ### C4: `compute_tilt` -/

theorem lfilterMA_one_zero : lfilterMA 1 [(0 : ℝ)] = [0] := by
  rw [lfilterMA]
  rw [show List.range ([(0 : ℝ)].length) = [0] from rfl]
  simp [Finset.sum_range_one]

theorem clamp1_zero : clamp1 0 = 0 := by
  rw [clamp1]
  norm_num

theorem clamp1_one : clamp1 1 = 1 := by
  rw [clamp1]
  norm_num

/-- A post-smoothing value of exactly `0` yields a tilt of `0` degrees. -/
theorem tiltFormula_zero : tiltFormula 0 = 0 := by
  rw [tiltFormula, clamp1_zero, Real.arccos_zero]
  have h : Real.pi / 2 * (180 / Real.pi) = 90 := by
    field_simp
    ring
  rw [h]
  ring

/-- A post-smoothing value of exactly `1` yields a tilt of `90` degrees. -/
theorem tiltFormula_one : tiltFormula 1 = 90 := by
  rw [tiltFormula, clamp1_one, Real.arccos_one]
  ring

theorem tiltFormula_bounds (c : ℝ) : -90 ≤ tiltFormula c ∧ tiltFormula c ≤ 90 := by
  have h1 : 0 ≤ Real.arccos (clamp1 c) := Real.arccos_nonneg _
  have h2 : Real.arccos (clamp1 c) ≤ Real.pi := Real.arccos_le_pi _
  have hpi : (0 : ℝ) < Real.pi := Real.pi_pos
  have h180 : (0 : ℝ) < 180 / Real.pi := by positivity
  rw [tiltFormula]
  constructor
  · have hle : Real.arccos (clamp1 c) * (180 / Real.pi) ≤ 180 := by
      calc Real.arccos (clamp1 c) * (180 / Real.pi)
          ≤ Real.pi * (180 / Real.pi) := mul_le_mul_of_nonneg_right h2 (le_of_lt h180)
        _ = 180 := by field_simp
    linarith
  · have hge : 0 ≤ Real.arccos (clamp1 c) * (180 / Real.pi) := by positivity
    linarith

theorem compute_tilt_zero_eval : compute_tilt [0] 1 true = [0] := by
  rw [compute_tilt]
  simp only [if_pos]
  rw [lfilterMA_one_zero]
  rw [List.map_singleton, tiltFormula_zero]

/-- Claim C4 is violated by the code: a (post-smoothing) input value of
exactly `0` yields a tilt of `0` degrees, not `90` degrees
(`-arccos(0)*180/π + 90 = 0`). -/
theorem compute_tilt_zero_cex : compute_tilt [0] 1 true = [0] ∧ (0 : ℝ) ≠ 90 :=
  ⟨compute_tilt_zero_eval, by norm_num⟩

/-- Claim C4 (amended): each output of `compute_tilt` is
`-arccos(clamp(c))*180/π + 90` of the smoothed value `c`, so every output
lies in `[-90, 90]`; a post-smoothing value of exactly `1` yields `90`
degrees, while a post-smoothing value of exactly `0` yields `0` degrees. -/
theorem compute_tilt_spec (accl_farm : List ℝ) (nwin : ℕ) (causal : Bool) :
    compute_tilt accl_farm nwin causal =
      (if causal then lfilterMA nwin accl_farm else savgol0 nwin accl_farm).map tiltFormula ∧
    (∀ y ∈ compute_tilt accl_farm nwin causal, -90 ≤ y ∧ y ≤ 90) ∧
    tiltFormula 0 = 0 ∧ tiltFormula 1 = 90 := by
  refine ⟨rfl, ?_, tiltFormula_zero, tiltFormula_one⟩
  intro y hy
  rw [compute_tilt] at hy
  obtain ⟨c, _, rfl⟩ := List.mem_map.mp hy
  exact tiltFormula_bounds c

/-- Witness for `compute_tilt_spec` at the concrete run
`compute_tilt [0] 1 true = [0]`. -/
theorem compute_tilt_spec_witness : (-90 : ℝ) ≤ 0 ∧ (0 : ℝ) ≤ 90 :=
  (compute_tilt_spec [0] 1 true).2.1 0 (by rw [compute_tilt_zero_eval]; simp)

end Misc
